import Mathlib

/-!
Verification of the footnote markdown extension (inkdrop-footnotes).

The development shallowly embeds the bundled source (tokenizers for footnote
calls and definitions, the inline-note event resolvers, the tree-building
exit handlers, and the serializer helpers) as executable Lean functions and
proves the specification claims about them.

Character codes are modelled as `Int`, following the source's virtual
alphabet: real characters are their (non-negative) char codes, `-5`/`-4`/`-3`
are the virtual CR / LF / CRLF line endings, `-2` is horizontal tab and `-1`
virtual space.  The `null` (end of input) code is represented by the end of
the input list.
-/

namespace Footnotes

/-- `markdownLineEnding` from the source: `code !== null && code < -2`. -/
def mdLineEnding (c : Int) : Bool := c < -2

/-- `markdownSpace` from the source: `code === -2 || code === -1 || code === 32`. -/
def mdSpace (c : Int) : Bool := c = -2 || c = -1 || c = 32

/-- `markdownLineEndingOrSpace` from the source: `code !== null && (code < 0 || code === 32)`. -/
def mdLineEndingOrSpace (c : Int) : Bool := c < 0 || c = 32

/-- Characters collapsed by `normalizeIdentifier`'s regex `[\t\n\r ]`. -/
def isMdWsChar (c : Char) : Bool := c = '\t' || c = '\n' || c = '\r' || c = ' '

/-- Collapse every run of markdown whitespace to a single space
(the `replace(/[\t\n\r ]+/g, ' ')` step of `normalizeIdentifier`).
`prevWs` records whether the previous character belonged to a whitespace run. -/
def collapseWsGo (prevWs : Bool) : List Char → List Char
  | [] => []
  | c :: rest =>
    if isMdWsChar c then
      (if prevWs then ([] : List Char) else [' ']) ++ collapseWsGo true rest
    else
      c :: collapseWsGo false rest

def collapseWs (l : List Char) : List Char := collapseWsGo false l

/-- The `replace(/^ | $/g, '')` step of `normalizeIdentifier`: remove one
leading and one trailing space. -/
def trimOneSpace (l : List Char) : List Char :=
  let l1 := match l with
    | ' ' :: r => r
    | other => other
  match l1.reverse with
  | ' ' :: r => r.reverse
  | _ => l1

/-- `normalizeIdentifier` from the source: collapse markdown whitespace,
trim one leading/trailing space, then lower- and uppercase in sequence.
(Case mapping is modelled by Lean's ASCII `Char.toLower`/`Char.toUpper`,
which agrees with the JavaScript string methods on the ASCII range.) -/
def normalizeIdentifier (s : String) : String :=
  ⟨((trimOneSpace (collapseWs s.data)).map Char.toLower).map Char.toUpper⟩

/-- Serialization of one code in `sliceSerialize` (without tab expansion):
`-5 ↦ "\r"`, `-4 ↦ "\n"`, `-3 ↦ "\r\n"`, `-2 ↦ "\t"`, `-1 ↦ ""`,
a real character code to its character. -/
def codeChars (c : Int) : List Char :=
  if c = -5 then ['\r']
  else if c = -4 then ['\n']
  else if c = -3 then ['\r', '\n']
  else if c = -2 then ['\t']
  else if c = -1 then []
  else [Char.ofNat c.toNat]

def codesToChars : List Int → List Char
  | [] => []
  | c :: rest => codeChars c ++ codesToChars rest

/-- `sliceSerialize` of a token covering the given consumed codes. -/
def sliceSerialize (l : List Int) : String := ⟨codesToChars l⟩

/-- Successful result of the footnote-call tokenizer: the codes of the
`footnoteCallString` token and the input remaining after the closing `]`. -/
structure CallOk where
  label : List Int
  rest : List Int
  deriving DecidableEq

/-- The `callData`/`callEscape` states of `tokenizeFootnoteCall`, with the
pending-escape state (`callEscape`) represented by the flag `esc`, so that
each step consumes exactly one code.  `size` and `data` are the source's
counters, `acc` the codes consumed into the `footnoteCallString` token so
far.  The source's `size++ > 999` entry test compares the old value of
`size`; `callEscape` consumes an escaped `[`/`\`/`]` (incrementing `size`)
and otherwise re-enters `callData` on the same code, which is the `else`
branch below. -/
def callData (defined : List String) (size : Nat) (data esc : Bool) (acc : List Int) :
    List Int → Option CallOk
  | [] => none
  | c :: rest =>
    if esc ∧ (c = 91 ∨ c = 92 ∨ c = 93) then
      callData defined (size + 1) data false (acc ++ [c]) rest
    else if c = 91 ∨ size > 999 then none
    else if c = 93 then
      if data = false then none
      else if defined.contains (normalizeIdentifier (sliceSerialize acc)) then
        some ⟨acc, rest⟩
      else none
    else
      callData defined (size + 1) (data || !mdLineEndingOrSpace c) (c = 92) (acc ++ [c]) rest

/-- `tokenizeFootnoteCall`: consume the opening `[`, require `^`, then run
the label states.  `defined` is `self.parser.footnotes`, the per-parse list
of known footnote identifiers. -/
def tokenizeFootnoteCall (defined : List String) : List Int → Option CallOk
  | _ :: 94 :: rest => callData defined 0 false false [] rest
  | _ => none

/-- Successful result of the footnote-definition label states: the codes of
the `footnoteDefinitionLabelString` token and the input remaining after the
closing `]`. -/
structure LabelOk where
  slice : List Int
  rest : List Int
  deriving DecidableEq

/-- The `atBreak`/`label`/`labelEscape` states of `tokenizeDefinitionStart`,
with the pending-escape state (`labelEscape`) represented by the flag `esc`
so that each step consumes exactly one code.  Line endings are consumed by
`atBreak` (incrementing `size`, leaving `data` untouched); other codes are
consumed by `label`, which also records non-whitespace in `data`; an escaped
`[`/`\`/`]` is consumed by `labelEscape` (incrementing `size`), which
otherwise re-enters `label` on the same code.  The label token's slice
covers every consumed code, line endings included. -/
def defLabel (size : Nat) (data esc : Bool) (acc : List Int) :
    List Int → Option LabelOk
  | [] => none
  | c :: rest =>
    if esc ∧ (c = 91 ∨ c = 92 ∨ c = 93) then
      defLabel (size + 1) data false (acc ++ [c]) rest
    else if c = 91 ∨ size > 999 then none
    else if c = 93 then
      if data = false then none
      else some ⟨acc, rest⟩
    else if mdLineEnding c then
      defLabel (size + 1) data false (acc ++ [c]) rest
    else
      defLabel (size + 1) (data || !mdLineEndingOrSpace c) (c = 92) (acc ++ [c]) rest

/-- `tokenizeBlankLine` (construct `blankLine`): optional markdown spaces,
then a line ending or end of input. -/
def blankLineCheck : List Int → Bool
  | [] => true
  | c :: rest => if mdSpace c then blankLineCheck rest else mdLineEnding c

/-- The `done` state of `tokenizeDefinitionStart`:
`if (!defined.includes(identifier)) defined.push(identifier)`. -/
def registerIdentifier (defined : List String) (identifier : String) : List String :=
  if defined.contains identifier then defined else defined ++ [identifier]

/-- Successful result of `tokenizeDefinitionStart`. -/
structure DefStartOk where
  labelSlice : List Int
  identifier : String
  initialBlankLine : Bool
  rest : List Int
  defined' : List String
  deriving DecidableEq

/-- `tokenizeDefinitionStart`: consume the opening `[`, require `^`, run the
label states, require the `:` marker, then check for a blank remainder of
the line (recording `containerState.initialBlankLine`) or optionally consume
one markdown space, and finally register the normalized identifier in the
per-parse `defined` list. -/
def tokenizeDefinitionStart (defined : List String) : List Int → Option DefStartOk
  | _ :: 94 :: rest =>
    match defLabel 0 false false [] rest with
    | some lr =>
      let identifier := normalizeIdentifier (sliceSerialize lr.slice)
      match lr.rest with
      | 58 :: rest4 =>
        if blankLineCheck rest4 then
          some ⟨lr.slice, identifier, true, rest4, registerIdentifier defined identifier⟩
        else
          match rest4 with
          | c :: rest5 =>
            if mdSpace c then
              some ⟨lr.slice, identifier, false, rest5, registerIdentifier defined identifier⟩
            else
              some ⟨lr.slice, identifier, false, c :: rest5, registerIdentifier defined identifier⟩
          | [] => some ⟨lr.slice, identifier, false, [], registerIdentifier defined identifier⟩
      | _ => none
    | none => none
  | _ => none

/-- The `containerState` flags used by the definition continuation machine. -/
structure ContState where
  initialBlankLine : Bool
  furtherBlankLines : Bool
  deriving DecidableEq

/-- Consume up to `max` leading markdown spaces (`factorySpace` with the
given exclusive bound, as used by `tokenizeIndent` with `4 + 1`): returns
the consumed codes and the remaining input. -/
def takeSpaces (limit : Nat) : List Int → List Int × List Int
  | [] => ([], [])
  | c :: rest =>
    if mdSpace c ∧ limit > 0 then
      let (sp, r) := takeSpaces (limit - 1) rest
      (c :: sp, r)
    else ([], c :: rest)

/-- `tokenizeDefinitionContinuation` (with the `indent` partial tokenizer
inlined): a blank line is accepted as-is, setting `furtherBlankLines` when
the definition opened on a blank line; a non-blank line is rejected when
`furtherBlankLines` is set or it does not start with a markdown space, and
otherwise continues exactly when `tokenizeIndent` consumes an indent token
that serializes to 4 columns.  On success returns the updated container
state and the input with the consumed indent stripped. -/
def tokenizeDefinitionContinuation (st : ContState) (input : List Int) :
    Option (ContState × List Int) :=
  if blankLineCheck input then
    some ({ st with furtherBlankLines := st.furtherBlankLines || st.initialBlankLine }, input)
  else
    match input with
    | [] => none
    | c :: rest =>
      if st.furtherBlankLines || !mdSpace c then none
      else
        let (sp, r) := takeSpaces 4 (c :: rest)
        if sp.length = 4 then some (⟨false, false⟩, r) else none

/-- Split off one line: the codes before the first line ending, and the
input after that line ending (line-ending codes are `< -2`). -/
def takeLine : List Int → List Int × List Int
  | [] => ([], [])
  | c :: rest =>
    if mdLineEnding c then ([], rest)
    else
      let (l, r) := takeLine rest
      (c :: l, r)

/-- The host document loop over a definition's continuation lines: each line
is offered to `tokenizeDefinitionContinuation`; on success the line (indent
stripped) joins the body, on failure the container closes and the rest of
the input is left over.  `fuel` bounds the recursion; any `fuel ≥` input
length gives the loop's behaviour, since every accepted line consumes at
least one code. -/
def bodyLoop : Nat → ContState → List Int → List String × List Int
  | 0, _, input => ([], input)
  | _ + 1, _, [] => ([], [])
  | fuel + 1, st, c :: rest =>
    match tokenizeDefinitionContinuation st (c :: rest) with
    | none => ([], c :: rest)
    | some (st', stripped) =>
      let (line, r) := takeLine stripped
      let (lines, leftover) := bodyLoop fuel st' r
      (sliceSerialize line :: lines, leftover)

/-- Encode a document string as micromark codes; models the preprocessor for
inputs without tabs or carriage returns: LF becomes the virtual code `-4`. -/
def toCodes (s : String) : List Int :=
  s.data.map fun c => if c = '\n' then (-4 : Int) else (c.toNat : Int)

/-- Block content of a footnote definition body (only paragraphs are needed
by the claims). -/
inductive Block
  | paragraph (text : String)
  deriving DecidableEq

/-- `FootnoteDefinitionNode`. -/
structure FootnoteDefinitionNode where
  identifier : String
  label : String
  children : List Block
  deriving DecidableEq

/-- `FootnoteReferenceNode`. -/
structure FootnoteReferenceNode where
  identifier : String
  label : String
  deriving DecidableEq

/-- Modelled from the spec: the host's buffering/resume mechanism returns the
buffered label text with character escapes and references decoded (§6); the
decoding is the identity on label text containing neither escapes nor
references, which covers every input considered here. -/
def resumeModel (slice : List Int) : String := sliceSerialize slice

/-- JavaScript `String#toLowerCase`, modelled character-wise with Lean's
ASCII `Char.toLower` (they agree on the ASCII range). -/
def strToLower (s : String) : String := ⟨s.data.map Char.toLower⟩

/-- `exitFootnoteDefinitionLabelString`: sets the open node's `label` to the
resumed text and its `identifier` to
`normalizeIdentifier(this.sliceSerialize(token)).toLowerCase()`. -/
def exitFootnoteDefinitionLabelString (label : String) (slice : List Int)
    (node : FootnoteDefinitionNode) : FootnoteDefinitionNode :=
  { node with
    label := label
    identifier := strToLower (normalizeIdentifier (sliceSerialize slice)) }

/-- `exitFootnoteCallString`: sets the open node's `label` to the resumed
text and its `identifier` to
`normalizeIdentifier(this.sliceSerialize(token)).toLowerCase()`. -/
def exitFootnoteCallString (label : String) (slice : List Int)
    (node : FootnoteReferenceNode) : FootnoteReferenceNode :=
  { node with
    label := label
    identifier := strToLower (normalizeIdentifier (sliceSerialize slice)) }

/-- `map` from `footnoteDefinition`: indent every line after the first by
four spaces, except blank lines. -/
def fdMap (line : String) (index : Nat) (blank : Bool) : String :=
  if index ≠ 0 then (if blank then "" else "    ") ++ line else line

/-- `indentLines`: single pass over the value splitting on the `eol` regex
`\r?\n|\r`; each segment is mapped with its 0-based line index and whether
it is blank, and the line endings are kept verbatim.  `cur` accumulates the
current segment in reverse. -/
def indentLinesGo (map : String → Nat → Bool → String) (line : Nat) (cur : List Char) :
    List Char → List Char
  | [] => (map ⟨cur.reverse⟩ line cur.isEmpty).data
  | [c] =>
    if c = '\r' ∨ c = '\n' then
      (map ⟨cur.reverse⟩ line cur.isEmpty).data ++ [c] ++ indentLinesGo map (line + 1) [] []
    else indentLinesGo map line (c :: cur) []
  | c :: c2 :: rest =>
    if c = '\r' ∧ c2 = '\n' then
      (map ⟨cur.reverse⟩ line cur.isEmpty).data ++ [c, c2] ++ indentLinesGo map (line + 1) [] rest
    else if c = '\r' ∨ c = '\n' then
      (map ⟨cur.reverse⟩ line cur.isEmpty).data ++ [c] ++
        indentLinesGo map (line + 1) [] (c2 :: rest)
    else indentLinesGo map line (c :: cur) (c2 :: rest)

def indentLines (value : String) (map : String → Nat → Bool → String) : String :=
  ⟨indentLinesGo map 0 [] value.data⟩

/-- ASCII punctuation, as matched by the character class used in the
source's escape regexes: the four ranges from `!` to the slash, from the
colon to `@`, from `[` to the backtick, and from the opening curly brace to
the tilde. -/
def isAsciiPunct (c : Char) : Bool :=
  ('!' ≤ c && c ≤ '/') || (':' ≤ c && c ≤ '@') || ('[' ≤ c && c ≤ '`') ||
    ('\x7b' ≤ c && c ≤ '~')

def isDigitChar (c : Char) : Bool := '0' ≤ c && c ≤ '9'

/-- Hexadecimal digit, upper or lower case (the decode regex carries the
case-insensitive flag). -/
def isHexDigitChar (c : Char) : Bool :=
  isDigitChar c || ('a' ≤ c && c ≤ 'f') || ('A' ≤ c && c ≤ 'F')

/-- The character class of named-reference names, `[\da-z]` under the
case-insensitive flag. -/
def isAlnumChar (c : Char) : Bool :=
  isDigitChar c || ('a' ≤ c && c ≤ 'z') || ('A' ≤ c && c ≤ 'Z')

def digitVal (c : Char) : Nat :=
  if c ≤ '9' then c.toNat - 48 else if c ≤ 'F' then c.toNat - 55 else c.toNat - 87

/-- `Number.parseInt` on a string of digits of the given base (the decode
regex guarantees 1-7 decimal or 1-6 hexadecimal digits, so the value is
exact). -/
def parseIntBase (base : Nat) (digits : List Char) : Nat :=
  digits.foldl (fun acc c => acc * base + digitVal c) 0

/-- JavaScript `String.fromCharCode`: the UTF-16 code unit `n mod 2^16`.
(Code units that are not scalar values cannot be represented as a `Char`
and fall to the null character; `decodeNumericCharacterReference` never
produces them from the claims' inputs.) -/
def jsFromCharCode (n : Nat) : Char := Char.ofNat (n % 65536)

/-- `decodeNumericCharacterReference` from the source: parse the digits,
replace C0 and C1 controls, surrogates, noncharacters and out-of-range
values by U+FFFD, and otherwise take `String.fromCharCode`. -/
def decodeNumericCharacterReference (digits : List Char) (base : Nat) : List Char :=
  let code := parseIntBase base digits
  if code < 9 ∨ code = 11 ∨ (13 < code ∧ code < 32) ∨ (126 < code ∧ code < 160) ∨
      (55295 < code ∧ code < 57344) ∨ (64975 < code ∧ code < 65008) ∨
      code % 65536 = 65535 ∨ code % 65536 = 65534 ∨ 1114111 < code then
    ['\uFFFD']
  else [jsFromCharCode code]

/-- The named-character-reference lookup table `characterEntities` is
excluded static data (spec §1: "a static data lookup, not an algorithm");
it is modelled here by a representative fragment of the source table. -/
def characterEntitiesModel : List (String × String) :=
  [("AMP", "&"), ("amp", "&"), ("lt", "<"), ("LT", "<"), ("gt", ">"), ("GT", ">"),
    ("quot", "\""), ("QUOT", "\""), ("copy", "©"), ("COPY", "©")]

/-- `decodeNamedCharacterReference`: look the name up in the (modelled)
entity table; `none` plays the source's `false`. -/
def decodeNamedCharacterReference (name : String) : Option String :=
  (characterEntitiesModel.find? (fun e => e.1 == name)).map (fun e => e.2)

/-- One attempt of the reference alternative of the decode regex, at the
position just after a `&`: `#` plus 1-7 decimal digits, `#x`/`#X` plus 1-6
hexadecimal digits, or a 1-31 character alphanumeric name, each followed by
`;`.  The runs are maximal (a longer run cannot match, since backtracking
still meets a digit or name character where `;` is required).  Returns the
replacement text and the input after the match; a failed named lookup keeps
the matched text, as in `decode`. -/
def parseReference : List Char → Option (List Char × List Char)
  | '#' :: rest =>
    match rest with
    | c :: rest2 =>
      if c = 'x' ∨ c = 'X' then
        match rest2.span isHexDigitChar with
        | (ds, rest3) =>
          if 1 ≤ ds.length ∧ ds.length ≤ 6 then
            match rest3 with
            | ';' :: rest4 => some (decodeNumericCharacterReference ds 16, rest4)
            | _ => none
          else none
      else
        match (c :: rest2).span isDigitChar with
        | (ds, rest3) =>
          if 1 ≤ ds.length ∧ ds.length ≤ 7 then
            match rest3 with
            | ';' :: rest4 => some (decodeNumericCharacterReference ds 10, rest4)
            | _ => none
          else none
    | [] => none
  | l =>
    match l.span isAlnumChar with
    | (ds, rest3) =>
      if 1 ≤ ds.length ∧ ds.length ≤ 31 then
        match rest3 with
        | ';' :: rest4 =>
          match decodeNamedCharacterReference ⟨ds⟩ with
          | some s => some (s.data, rest4)
          | none => some ('&' :: (ds ++ [';']), rest4)
        | _ => none
      else none

/-- The global-replace scan of `decodeString`: at each position try the
escape alternative (backslash before ASCII punctuation) and the reference
alternative (after `&`), otherwise keep the character and advance by one.
`fuel` bounds the recursion; any `fuel ≥` input length gives the scan's
behaviour, since every step consumes at least one character. -/
def decodeStringGo : Nat → List Char → List Char
  | 0, l => l
  | _ + 1, [] => []
  | fuel + 1, c :: rest =>
    if c = '\\' then
      match rest with
      | c2 :: rest2 =>
        if isAsciiPunct c2 then c2 :: decodeStringGo fuel rest2
        else c :: decodeStringGo fuel rest
      | [] => [c]
    else if c = '&' then
      match parseReference rest with
      | some (repl, rest4) => repl ++ decodeStringGo fuel rest4
      | none => c :: decodeStringGo fuel rest
    else c :: decodeStringGo fuel rest

/-- `decodeString` from the source: decode character escapes and character
references. -/
def decodeString (value : String) : String :=
  ⟨decodeStringGo value.data.length value.data⟩

/-- `association`: prefer the label; an empty label with a non-empty
identifier falls back to the decoded identifier. -/
def association (label identifier : String) : String :=
  if label ≠ "" ∨ identifier = "" then label else decodeString identifier

/-- An unsafe pattern as consumed by `safe`: the character, whether the
pattern carries `before`, `after` or `atBreak` context conditions (every
pattern instantiated in this development carries none, see
`serializerUnsafeRules`), and the construct scopes. -/
structure UnsafeRule where
  character : Char
  hasBefore : Bool
  hasAfter : Bool
  atBreak : Bool
  inConstruct : List String
  notInConstruct : List String

/-- `listInScope` (with the list already in array form): an empty list
yields the `none` default, otherwise some listed construct must be on the
stack. -/
def listInScope (stack : List String) (l : List String) (noneDefault : Bool) : Bool :=
  if l.isEmpty then noneDefault else l.any (fun c => stack.contains c)

/-- `patternInScope` from the source. -/
def patternInScope (stack : List String) (p : UnsafeRule) : Bool :=
  listInScope stack p.inConstruct true && !listInScope stack p.notInConstruct false

/-- The match positions of a pattern's compiled expression.
`patternCompile` on a pattern with neither `atBreak`, `before` nor `after`
compiles to the escaped character alone with the global flag, so its exec
positions are exactly the indices of that character (the only pattern shape
instantiated here). -/
def charPositions (ch : Char) : List Char → Nat → List Nat
  | [], _ => []
  | c :: rest, i =>
    if c = ch then i :: charPositions ch rest (i + 1) else charPositions ch rest (i + 1)

/-- A retained escape position with its pattern-context flags (`infos`). -/
structure PosInfo where
  pos : Nat
  before : Bool
  after : Bool

/-- Recording one match in `positions`/`infos`: a repeated position weakens
its flags (each is cleared when the new match lacks it), a new position is
appended. -/
def addHit (hits : List PosInfo) (pos : Nat) (b a : Bool) : List PosInfo :=
  if hits.any (fun h => h.pos = pos) then
    hits.map fun h =>
      if h.pos = pos then { h with before := h.before && b, after := h.after && a } else h
  else hits ++ [⟨pos, b, a⟩]

/-- The first loop of `safe`: every in-scope pattern contributes its match
positions in order. -/
def collectHits (stack : List String) (rules : List UnsafeRule) (value : List Char) :
    List PosInfo :=
  rules.foldl
    (fun hits p =>
      if patternInScope stack p then
        (charPositions p.character value 0).foldl
          (fun hits pos => addHit hits pos (p.hasBefore || p.atBreak) p.hasAfter) hits
      else hits)
    []

def insertByPos (h : PosInfo) : List PosInfo → List PosInfo
  | [] => [h]
  | h2 :: rest => if h.pos ≤ h2.pos then h :: h2 :: rest else h2 :: insertByPos h rest

/-- `positions.sort(numerical)` (positions are distinct, so any stable
ascending sort agrees with the source). -/
def sortByPos : List PosInfo → List PosInfo
  | [] => []
  | h :: rest => insertByPos h (sortByPos rest)

/-- `String#slice` on character lists (clamping like the JavaScript
original). -/
def sliceStr (value : List Char) (a b : Nat) : List Char := (value.take b).drop a

/-- The match positions of the lookahead regex in `escapeBackslashes`: a
backslash directly followed by ASCII punctuation. -/
def backslashPositions : List Char → Nat → List Nat
  | c :: c2 :: rest, i =>
    if c = '\\' ∧ isAsciiPunct c2 then i :: backslashPositions (c2 :: rest) (i + 1)
    else backslashPositions (c2 :: rest) (i + 1)
  | _, _ => []

def escapeBackslashesGo (value : List Char) : Nat → List Nat → List Char
  | start, [] => value.drop start
  | start, p :: rest =>
    (if start ≠ p then sliceStr value start p else []) ++
      '\\' :: escapeBackslashesGo value p rest

/-- `escapeBackslashes` from the source: double every backslash of `value`
that is directly followed by ASCII punctuation, looking ahead into
`after`. -/
def escapeBackslashes (value : String) (after : String) : String :=
  ⟨escapeBackslashesGo value.data 0 (backslashPositions (value.data ++ after.data) 0)⟩

/-- `config` of `safe`: the rendered text before and after the input, and
the optional `encode` character list (absent in every call made by this
extension). -/
structure SafeConfig where
  before : String
  after : String
  encode : Option (List Char)

/-- The hexadecimal character reference `&#x…;` emitted by `safe`
(`charCodeAt` is the code point on the claims' plane-0 inputs). -/
def hexRef (c : Char) : List Char :=
  '&' :: '#' :: 'x' :: ((Nat.toDigits 16 c.toNat).map Char.toUpper ++ [';'])

/-- The second loop of `safe` over the sorted positions: skip positions
outside the input region or neutralized by an adjacent escape, flush the
segment before each kept position through `escapeBackslashes`, then emit a
backslash for ASCII punctuation (unless listed in `encode`) or a
hexadecimal character reference (consuming the character) otherwise.
`prev` is the previous sorted position with its flags, skipped or not, as
in the source's `positions[index - 1]`. -/
def safeGo (value : List Char) (cfg : SafeConfig) (endPos : Nat) :
    Nat → Option PosInfo → List PosInfo → List Char
  | start, _, [] => (escapeBackslashes ⟨sliceStr value start endPos⟩ cfg.after).data
  | start, prev, h :: rest =>
    if h.pos < start ∨ endPos ≤ h.pos then
      safeGo value cfg endPos start (some h) rest
    else if (decide (h.pos + 1 < endPos) &&
          (match rest.head? with
            | some h2 => decide (h2.pos = h.pos + 1) && h.after && !h2.before && !h2.after
            | none => false)) ||
        (match prev with
          | some hp => decide (hp.pos + 1 = h.pos) && h.before && !hp.before && !hp.after
          | none => false) then
      safeGo value cfg endPos start (some h) rest
    else
      let pre := if start ≠ h.pos then
          (escapeBackslashes ⟨sliceStr value start h.pos⟩ "\\").data
        else []
      let c := value.getD h.pos ' '
      if isAsciiPunct c && (match cfg.encode with
          | none => true
          | some enc => !enc.contains c) then
        pre ++ '\\' :: safeGo value cfg endPos h.pos (some h) rest
      else
        pre ++ hexRef c ++ safeGo value cfg endPos (h.pos + 1) (some h) rest

/-- `safe` from the source: collect the in-scope unsafe positions over
`before + input + after`, merge and sort them, and emit the escaped input
region. -/
def safe (stack : List String) (rules : List UnsafeRule) (input : String)
    (cfg : SafeConfig) : String :=
  let value := cfg.before.data ++ input.data ++ cfg.after.data
  ⟨safeGo value cfg (value.length - cfg.after.length) cfg.before.length none
    (sortByPos (collectHits stack rules value))⟩

/-- The serializer extension's single unsafe declaration
(`footnoteToMarkdown.unsafe`): `[`, in phrasing/label/reference scope, with
no context conditions. -/
def footnoteUnsafeRule : UnsafeRule :=
  ⟨'[', false, false, false, ["phrasing", "label", "reference"], []⟩

/-- Modelled from the spec: `state.unsafe` is the host serializer's own
pattern table extended by the extensions'; the host table is host data
outside src, and §6 specifies the declaration relevant here as the
extension's `[` pattern. -/
def serializerUnsafeRules : List UnsafeRule := [footnoteUnsafeRule]

/-- Modelled from the spec: the construct-name stack when the definition
label is serialized; the handler has entered `footnoteDefinition` and then
`label` (§4.4, §6). -/
def labelStack : List String := ["footnoteDefinition", "label"]

/-- Modelled from the spec: a paragraph's phrasing children serialize as the
paragraph's text (no unsafe characters occur in the inputs considered
here). -/
def serializeBlock : Block → String
  | .paragraph t => t

/-- The result of one host-supplied join resolver in `between`: `yes` for
`true` or `1` (accept the default), `num n` for another number (that many
extra blank lines), `no` for `false` (separate with an HTML comment), and
`undef` to fall through to the next resolver. -/
inductive JoinResult
  | yes
  | num (n : Nat)
  | no
  | undef

def betweenGo (left right : Block) : List (Block → Block → JoinResult) → String
  | [] => "\n\n"
  | f :: rest =>
    match f left right with
    | .yes => "\n\n"
    | .num n => ⟨List.replicate (1 + n) '\n'⟩
    | .no => "\n\n<!---->\n\n"
    | .undef => betweenGo left right rest

/-- `between` from the source: run the join resolvers from last to first;
`true`/`1` stops the loop, a number returns that many newlines plus one,
`false` returns the HTML-comment separator, and exhausting the list yields
one blank line. -/
def between (joins : List (Block → Block → JoinResult)) (left right : Block) : String :=
  betweenGo left right joins.reverse

def containerFlowGo (handle : Block → String)
    (joins : List (Block → Block → JoinResult)) : List Block → List String
  | [] => []
  | [c] => [handle c]
  | c :: c2 :: rest =>
    handle c :: between joins c c2 :: containerFlowGo handle joins (c2 :: rest)

/-- `containerFlow` from the source: serialize each flow child and place the
`between` separator before each next sibling.  (The tracker moves and the
`indexStack`/`bulletLastUsed` bookkeeping touch only serializer state, not
the emitted string.) -/
def containerFlow (handle : Block → String)
    (joins : List (Block → Block → JoinResult)) (children : List Block) : String :=
  String.join (containerFlowGo handle joins children)

/-- Modelled from the spec: the host's join-resolver list `state.join` is
host configuration outside src; with no resolvers `between` yields the
spec's default of one blank line. -/
def hostJoinResolvers : List (Block → Block → JoinResult) := []

/-- The `footnoteDefinition` serializer handler: `[^` + the safely escaped
association (`before` is the `[^` already moved past, `after` the coming
`]`) + `]:` + (a space exactly when the node has children) + the
flow-joined children passed through `indentLines` with `map`.  Position
tracking does not affect the emitted string. -/
def footnoteDefinitionSerialize (node : FootnoteDefinitionNode) : String :=
  "[^" ++
    safe labelStack serializerUnsafeRules (association node.label node.identifier)
      ⟨"[^", "]", none⟩ ++
    "]:" ++
    (if node.children.length > 0 then " " else "") ++
    indentLines (containerFlow serializeBlock hostJoinResolvers node.children) fdMap

/-- A line containing only markdown whitespace characters. -/
def isBlankString (s : String) : Bool := s.data.all isMdWsChar

def parasGo (cur : List String) : List String → List (List String)
  | [] => if cur.isEmpty then [] else [cur.reverse]
  | l :: rest =>
    if isBlankString l then
      if cur.isEmpty then parasGo [] rest else cur.reverse :: parasGo [] rest
    else parasGo (l :: cur) rest

/-- Modelled from the spec: the host parses the definition body's flow
content into paragraphs; maximal runs of non-blank lines form paragraphs,
whose lines are joined by line endings. -/
def parseFlowBody (lines : List String) : List Block :=
  (parasGo [] lines).map fun ls => Block.paragraph (String.intercalate "\n" ls)

/-- Parse a document consisting of a single footnote definition: run
`tokenizeDefinitionStart`, then feed each following line to the continuation
machine (`bodyLoop`); build the node the way the enter/exit handlers do.
Returns the node and the codes left over when the definition closes. -/
def parseFootnoteDefDoc (doc : String) : Option (FootnoteDefinitionNode × List Int) :=
  match tokenizeDefinitionStart [] (toCodes doc) with
  | none => none
  | some r =>
    let (line1, rest1) := takeLine r.rest
    let (lines, leftover) := bodyLoop rest1.length ⟨r.initialBlankLine, false⟩ rest1
    let bodyLines := sliceSerialize line1 :: lines
    let node0 : FootnoteDefinitionNode := ⟨"", "", parseFlowBody bodyLines⟩
    some (exitFootnoteDefinitionLabelString (resumeModel r.labelSlice) r.labelSlice node0,
      leftover)

/-- Serialize after parse. -/
def roundTrip (doc : String) : Option String :=
  (parseFootnoteDefDoc doc).map fun p => footnoteDefinitionSerialize p.1

/-- The identifier fold as the spec claims it, and nothing more: collapse
markdown whitespace runs to one space, trim one leading and one trailing
space, lower-case, then upper-case. -/
def specClaimedFold (s : String) : String :=
  ⟨((trimOneSpace (collapseWs s.data)).map Char.toLower).map Char.toUpper⟩

/-- Codes a label can contain without touching the bracket or escape
handling of the label states: anything except `[`, `\`, `]`. -/
def plainCode (c : Int) : Bool := !(c = 91 || c = 92 || c = 93)

/-- `Position = { line, column, offset }`. -/
structure Pos where
  line : Nat
  column : Nat
  offset : Nat
  deriving DecidableEq

/-- `Token`: type plus source range.  `id` models JavaScript object
identity: two events referring to the same token object carry the same
`id`, and mutating a token's `type` affects every event holding it. -/
structure Token where
  type : String
  start : Pos
  stop : Pos
  id : Nat
  deriving DecidableEq

inductive Phase
  | enter
  | exit
  deriving DecidableEq

/-- An event `(phase, token)`; the context component carries no data needed
here. -/
abbrev Event := Phase × Token

/-- Mutation of a shared token object: every event holding the token with
this `id` sees the new type. -/
def retypeId (i : Nat) (ty : String) (evs : List Event) : List Event :=
  evs.map fun e => if e.2.id = i then (e.1, { e.2 with type := ty }) else e

/-- `resolveAllNote`: walk the event list; at every `enter` of an
`inlineNoteStart` token, change the token's type to `data` (a shared-object
mutation, hence `retypeId`) and splice out the four marker sub-events that
follow, then continue scanning. -/
def resolveAllNote : List Event → List Event
  | [] => []
  | e :: rest =>
    if e.1 = Phase.enter ∧ e.2.type = "inlineNoteStart" then
      (Phase.enter, { e.2 with type := "data" }) ::
        resolveAllNote (retypeId e.2.id "data" (rest.drop 4))
    else
      e :: resolveAllNote rest
termination_by evs => evs.length
decreasing_by
  · simp only [retypeId, List.length_map, List.length_cons, List.length_drop]
    omega
  · simp

/-- The backward scan of `resolveToNoteEnd`: `while (index--)` starting at
`events.length - 4`, looking for the latest `enter` of an
`inlineNoteStart`. -/
def scanBack (evs : List Event) : Nat → Option Nat
  | 0 => none
  | i + 1 =>
    match evs.get? i with
    | some e =>
      if e.1 = Phase.enter ∧ e.2.type = "inlineNoteStart" then some i else scanBack evs i
    | none => scanBack evs i

/-- Event lookup with a dummy default (indices used by the source are in
range on the inputs it receives). -/
def evAt (evs : List Event) (i : Nat) : Event :=
  (evs.get? i).getD (Phase.enter, ⟨"", ⟨0, 0, 0⟩, ⟨0, 0, 0⟩, 0⟩)

/-- Largest token id in an event list; used to model the freshness of the
token objects `resolveToNoteEnd` allocates. -/
def maxId (evs : List Event) : Nat :=
  evs.foldr (fun e m => max e.2.id m) 0

/-- `resolveToNoteEnd`: find the latest unmatched inline-note start, build
the `inlineNote` group token and inner `inlineNoteText` token, re-resolve
the interior with the host's `insideSpan` resolvers (`inner`), and splice
the nested span over `[openIndex, end]`.  The tail of the spliced span is
pushed as `['exit', text]`, `events[events.length - 2]`,
`events[events.length - 3]`, `['exit', group]`, exactly as in the source. -/
def resolveToNoteEnd (inner : List Event → List Event) (events : List Event) :
    List Event :=
  match scanBack events (events.length - 4) with
  | none => events
  | some o =>
    let L := events.length
    let group : Token :=
      ⟨"inlineNote", (evAt events o).2.start, (evAt events (L - 1)).2.stop, maxId events + 1⟩
    let text : Token :=
      ⟨"inlineNoteText", (evAt events (o + 4)).2.stop, (evAt events (L - 3)).2.start,
        maxId events + 2⟩
    let note : List Event :=
      [(Phase.enter, group), evAt events (o + 1), evAt events (o + 2), evAt events (o + 3),
          evAt events (o + 4), (Phase.enter, text)] ++
        inner ((events.take (L - 4)).drop (o + 6)) ++
        [(Phase.exit, text), evAt events (L - 2), evAt events (L - 3), (Phase.exit, group)]
    events.take o ++ note

/-- First enter of `t` strictly before first exit of `t` (each token built
by the tokenizers enters and exits exactly once). -/
def enterBeforeExitB (evs : List Event) (t : Token) : Bool :=
  match evs.findIdx? (fun e => e == (Phase.enter, t)),
      evs.findIdx? (fun e => e == (Phase.exit, t)) with
  | some i, some j => i < j
  | _, _ => false

/-- Concrete positions and tokens for the events of `^[a]` as the
tokenizers emit them, used to exercise `resolveToNoteEnd`. -/
def exPos (k : Nat) : Pos := ⟨1, k + 1, k⟩

def exTok (ty : String) (a b i : Nat) : Token := ⟨ty, exPos a, exPos b, i⟩

def exNoteStart : Token := exTok "inlineNoteStart" 0 2 1

def exNoteMarker : Token := exTok "inlineNoteMarker" 0 1 2

def exNoteStartMarker : Token := exTok "inlineNoteStartMarker" 1 2 3

def exData : Token := exTok "data" 2 3 4

def exNoteEnd : Token := exTok "inlineNoteEnd" 3 4 5

def exNoteEndMarker : Token := exTok "inlineNoteEndMarker" 3 4 6

/-- The event stream for `^[a]` right before `resolveToNoteEnd` runs: the
six events of the inline-note start, the data events of `a`, and the four
events of the inline-note end. -/
def exNoteEvents : List Event :=
  [(Phase.enter, exNoteStart), (Phase.enter, exNoteMarker), (Phase.exit, exNoteMarker),
    (Phase.enter, exNoteStartMarker), (Phase.exit, exNoteStartMarker),
    (Phase.exit, exNoteStart),
    (Phase.enter, exData), (Phase.exit, exData),
    (Phase.enter, exNoteEnd), (Phase.enter, exNoteEndMarker),
    (Phase.exit, exNoteEndMarker), (Phase.exit, exNoteEnd)]

/-- A well-formed resolver input: `pre`, then the six events of an
inline-note start (enter, the two marker enter/exit pairs, exit), then the
interior `mid`, then the four events of the inline-note end. -/
def noteShapeEvents (pre mid : List Event) (s m1 m2 ne nem : Token) : List Event :=
  pre ++ (Phase.enter, s) :: (Phase.enter, m1) :: (Phase.exit, m1) ::
    (Phase.enter, m2) :: (Phase.exit, m2) :: (Phase.exit, s) ::
    (mid ++ [(Phase.enter, ne), (Phase.enter, nem), (Phase.exit, nem), (Phase.exit, ne)])

/-- The fresh `inlineNote` group token `resolveToNoteEnd` builds on a
well-formed input. -/
def noteGroupTok (pre mid : List Event) (s m1 m2 ne nem : Token) : Token :=
  ⟨"inlineNote", s.start, ne.stop, maxId (noteShapeEvents pre mid s m1 m2 ne nem) + 1⟩

/-- The fresh inner `inlineNoteText` token `resolveToNoteEnd` builds on a
well-formed input. -/
def noteTextTok (pre mid : List Event) (s m1 m2 ne nem : Token) : Token :=
  ⟨"inlineNoteText", m2.stop, nem.start, maxId (noteShapeEvents pre mid s m1 m2 ne nem) + 2⟩

/-- Split on the `eol` regex `\r?\n|\r`: list of (segment, line-ending)
pairs, the final segment paired with an empty ending. -/
def splitEolGo (cur : List Char) : List Char → List (List Char × List Char)
  | [] => [(cur.reverse, [])]
  | [c] =>
    if c = '\r' ∨ c = '\n' then (cur.reverse, [c]) :: splitEolGo [] []
    else splitEolGo (c :: cur) []
  | c :: c2 :: rest =>
    if c = '\r' ∧ c2 = '\n' then (cur.reverse, [c, c2]) :: splitEolGo [] rest
    else if c = '\r' ∨ c = '\n' then (cur.reverse, [c]) :: splitEolGo [] (c2 :: rest)
    else splitEolGo (c :: cur) (c2 :: rest)

/-- The spec's description of the definition body layout: every line after
the first is indented by 4 columns, blank lines are left unindented, line
endings are kept. -/
def indentSpecJoin : Nat → List (List Char × List Char) → List Char
  | _, [] => []
  | i, (seg, eol) :: rest =>
    (if i ≠ 0 ∧ seg ≠ [] then ' ' :: ' ' :: ' ' :: ' ' :: seg else seg) ++ eol ++
      indentSpecJoin (i + 1) rest

def indentSpec (value : String) : String :=
  ⟨indentSpecJoin 0 (splitEolGo [] value.data)⟩

/-- `Array#splice` as specified by ECMAScript (the refinement target):
clamp a possibly negative `start` into `[0, length]`, clamp the delete
count into `[0, length - start]`, delete, and insert all items at
`start`. -/
def nativeSplice {α : Type} (list : List α) (start remove : Int) (items : List α) :
    List α :=
  let len : Int := list.length
  let s : Nat := (if start < 0 then max (len + start) 0 else min start len).toNat
  let d : Nat := (min (max remove 0) (len - (s : Int))).toNat
  list.take s ++ items ++ list.drop (s + d)

/-- The chunk-insertion loop of `splice`: insert `items` in chunks of 10000
at `start`, advancing `start` by 10000 per chunk. -/
def insertChunks {α : Type} (list : List α) (start : Nat) (items : List α) : List α :=
  if items.isEmpty then list
  else
    insertChunks (list.take start ++ items.take 10000 ++ list.drop start) (start + 10000)
      (items.drop 10000)
termination_by items.length
decreasing_by
  have hpos : 0 < items.length := by
    cases items with
    | nil => simp_all [List.isEmpty]
    | cons a l => simp
  simp only [List.length_drop]
  omega

/-- `splice` from the source: normalize `start` into `[0, length]` and
`remove` to a non-negative count; with fewer than 10000 items delegate to
the native splice, otherwise delete first and then insert the items in
chunks of 10000. -/
def splice {α : Type} (list : List α) (start remove : Int) (items : List α) : List α :=
  let endLen : Int := list.length
  let s : Nat :=
    (if start < 0 then (if -start > endLen then 0 else endLen + start)
     else (if start > endLen then endLen else start)).toNat
  let r : Int := if remove > 0 then remove else 0
  if items.length < 10000 then
    list.take s ++ items ++ list.drop (s + (min r (endLen - (s : Int))).toNat)
  else
    let afterRemove :=
      if r ≠ 0 then list.take s ++ list.drop (s + (min r (endLen - (s : Int))).toNat)
      else list
    insertChunks afterRemove s items

end Footnotes

namespace Footnotes

theorem callData_mem_of_some (defined : List String) :
    ∀ (input : List Int) (size : Nat) (data esc : Bool) (acc : List Int) (r : CallOk),
      callData defined size data esc acc input = some r →
      normalizeIdentifier (sliceSerialize r.label) ∈ defined := by
  intro input
  induction input with
  | nil => intro size data esc acc r h; simp [callData] at h
  | cons c rest ih =>
    intro size data esc acc r h
    simp only [callData] at h
    split at h
    · exact ih _ _ _ _ _ h
    split at h
    · exact absurd h (by simp)
    split at h
    · split at h
      · exact absurd h (by simp)
      split at h
      next hmem =>
        cases h
        obtain ⟨b, hb, hbeq⟩ := List.contains_iff_exists_mem_beq.mp hmem
        show normalizeIdentifier (sliceSerialize acc) ∈ defined
        rw [eq_of_beq hbeq]; exact hb
      · exact absurd h (by simp)
    · exact ih _ _ _ _ _ h

lemma tokenizeFootnoteCall_mem_of_some (defined : List String) (input : List Int)
    (r : CallOk) (h : tokenizeFootnoteCall defined input = some r) :
    normalizeIdentifier (sliceSerialize r.label) ∈ defined := by
  unfold tokenizeFootnoteCall at h
  split at h
  · exact callData_mem_of_some defined _ _ _ _ _ _ h
  · exact absurd h (by simp)

lemma tokenizeFootnoteCall_empty_defined (input : List Int) :
    tokenizeFootnoteCall [] input = none := by
  cases h : tokenizeFootnoteCall [] input with
  | none => rfl
  | some r => exact absurd (tokenizeFootnoteCall_mem_of_some [] input r h) (by simp)

/-- C1: a footnote call candidate `[^id]` is accepted by `tokenizeFootnoteCall`
only if the normalized identifier of `id` is already in the per-parse
known-identifier list handed to the tokenizer; in particular, with no known
identifiers every call candidate fails (and so falls through to literal
text). -/
theorem call_requires_known_identifier :
    (∀ (defined : List String) (input : List Int) (r : CallOk),
        tokenizeFootnoteCall defined input = some r →
        normalizeIdentifier (sliceSerialize r.label) ∈ defined) ∧
    (∀ input : List Int, tokenizeFootnoteCall [] input = none) :=
  ⟨tokenizeFootnoteCall_mem_of_some, tokenizeFootnoteCall_empty_defined⟩

/-- Witness for C1 at the concrete document `[^1]` with known identifier
list `["1"]`. -/
theorem call_requires_known_identifier_witness :
    tokenizeFootnoteCall ["1"] [91, 94, 49, 93] = some ⟨[49], []⟩ ∧
      normalizeIdentifier (sliceSerialize [49]) ∈ ["1"] :=
  ⟨by decide,
    call_requires_known_identifier.1 ["1"] [91, 94, 49, 93] ⟨[49], []⟩ (by decide)⟩

/-- C2: parsing the text `[^1]: note` and then serializing the resulting
node reproduces exactly `[^1]: note`; and the definition `[^n]: a`, blank
line, `    b` (a two-paragraph body) round-trips with the second paragraph
re-indented by exactly 4 columns. -/
theorem definition_round_trip :
    roundTrip "[^1]: note" = some "[^1]: note" ∧
    roundTrip "[^n]: a\n\n    b" = some "[^n]: a\n\n    b" :=
  ⟨by decide, by decide⟩

/-- C3 counterexample: at the raw label text `A`, both exit handlers set
`identifier` to `a`, not to the claimed collapse/trim/lowercase/uppercase
result `A`: the handlers apply one more `toLowerCase()` on top of
`normalizeIdentifier`. -/
theorem identifier_fold_counterexample :
    (exitFootnoteDefinitionLabelString (resumeModel [65]) [65]
        ⟨"", "", []⟩).identifier ≠ specClaimedFold (sliceSerialize [65]) ∧
    (exitFootnoteCallString (resumeModel [65]) [65] ⟨"", ""⟩).identifier ≠
      specClaimedFold (sliceSerialize [65]) :=
  ⟨by decide, by decide⟩

/-- C3 (amended): when a label-string token exits, the built node's
`identifier` equals the raw label slice transformed by collapsing markdown
whitespace runs, trimming one leading and one trailing space, lower-casing,
upper-casing, and then lower-casing once more — for the definition handler
and the call handler alike. -/
theorem identifier_fold_amended :
    ∀ (label : String) (slice : List Int) (dnode : FootnoteDefinitionNode)
      (rnode : FootnoteReferenceNode),
      (exitFootnoteDefinitionLabelString label slice dnode).identifier =
        strToLower (specClaimedFold (sliceSerialize slice)) ∧
      (exitFootnoteCallString label slice rnode).identifier =
        strToLower (specClaimedFold (sliceSerialize slice)) :=
  fun _ _ _ _ => ⟨rfl, rfl⟩

lemma fdMap_data (s : String) (n : Nat) (b : Bool) :
    (fdMap s n b).data =
      if n ≠ 0 ∧ b = false then ' ' :: ' ' :: ' ' :: ' ' :: s.data else s.data := by
  unfold fdMap
  by_cases hn : n = 0 <;> cases b <;>
    simp [hn, String.data_append, show ("    " : String).data = [' ', ' ', ' ', ' '] from rfl]

lemma indentLinesGo_fdMap_eq :
    (input : List Char) → (n : Nat) → (cur : List Char) →
      indentLinesGo fdMap n cur input = indentSpecJoin n (splitEolGo cur input)
  | [], n, cur => by
    simp [indentLinesGo, splitEolGo, indentSpecJoin, fdMap_data]
  | [c], n, cur => by
    by_cases h : c = '\r' ∨ c = '\n'
    · simp [indentLinesGo, splitEolGo, indentSpecJoin, fdMap_data, h, List.append_assoc]
    · simp [indentLinesGo, splitEolGo, indentSpecJoin, fdMap_data, h, List.append_assoc]
  | c :: c2 :: rest, n, cur => by
    by_cases h1 : c = '\r' ∧ c2 = '\n'
    · simp [indentLinesGo, splitEolGo, h1, indentLinesGo_fdMap_eq rest (n + 1) [],
        indentSpecJoin, fdMap_data, List.append_assoc]
    · by_cases h2 : c = '\r' ∨ c = '\n'
      · simp [indentLinesGo, splitEolGo, h1, h2,
          indentLinesGo_fdMap_eq (c2 :: rest) (n + 1) [],
          indentSpecJoin, fdMap_data, List.append_assoc]
      · simp [indentLinesGo, splitEolGo, h1, h2,
          indentLinesGo_fdMap_eq (c2 :: rest) n (c :: cur)]

/-- C9: serializing a `FootnoteDefinitionNode` yields `[^` + escaped label
+ `]:`, a single space exactly when the node has at least one child, and
the flow-joined children laid out with every line after the first indented
by 4 columns except blank lines, which are left unindented
(`indentSpec` states that layout directly; the handler realizes it through
`indentLines` and its `map`). -/
theorem footnote_definition_serializer_shape :
    ∀ node : FootnoteDefinitionNode,
      footnoteDefinitionSerialize node =
        "[^" ++
          safe labelStack serializerUnsafeRules (association node.label node.identifier)
            ⟨"[^", "]", none⟩ ++
          "]:" ++
          (if node.children.length > 0 then " " else "") ++
          indentSpec (containerFlow serializeBlock hostJoinResolvers node.children) := by
  intro node
  unfold footnoteDefinitionSerialize indentSpec indentLines
  congr 1
  exact congrArg String.mk (indentLinesGo_fdMap_eq _ 0 [])

lemma insertChunks_spec {α : Type} :
    ∀ (n : Nat) (items : List α), items.length ≤ n →
      ∀ (list : List α) (s : Nat), s ≤ list.length →
        insertChunks list s items = list.take s ++ items ++ list.drop s := by
  intro n
  induction n with
  | zero =>
    intro items hlen list s _
    have hnil : items = [] := List.eq_nil_of_length_eq_zero (Nat.le_zero.mp hlen)
    subst hnil
    rw [insertChunks]
    simp
  | succ n ih =>
    intro items hlen list s hs
    by_cases hemp : items.isEmpty
    · rw [insertChunks]
      have hnil : items = [] := by
        cases items with
        | nil => rfl
        | cons a l => simp [List.isEmpty] at hemp
      subst hnil
      simp
    · rw [insertChunks]
      simp only [hemp, if_false, Bool.false_eq_true]
      by_cases hsmall : items.length ≤ 10000
      · have hdrop : items.drop 10000 = [] :=
          List.drop_eq_nil_of_le hsmall
        have htake : items.take 10000 = items := List.take_of_length_le hsmall
        rw [hdrop, htake, insertChunks]
        simp [List.append_assoc]
      · have hlen' : (items.drop 10000).length ≤ n := by
          simp only [List.length_drop]
          omega
        have hlist' : s + 10000 ≤ (list.take s ++ items.take 10000 ++ list.drop s).length := by
          have h1 : (list.take s).length = s := List.length_take_of_le hs
          have h2 : (items.take 10000).length = 10000 :=
            List.length_take_of_le (by omega)
          simp only [List.length_append, h1, h2]
          omega
        rw [ih _ hlen' _ _ hlist']
        have hfront : ((list.take s ++ items.take 10000) : List α).length = s + 10000 := by
          have h1 : (list.take s).length = s := List.length_take_of_le hs
          have h2 : (items.take 10000).length = 10000 :=
            List.length_take_of_le (by omega)
          simp [h1, h2]
        rw [List.append_assoc (list.take s) (items.take 10000) (list.drop s)] at *
        rw [show list.take s ++ (items.take 10000 ++ list.drop s) =
            (list.take s ++ items.take 10000) ++ list.drop s from
          (List.append_assoc _ _ _).symm]
        rw [List.take_left' hfront, List.drop_left' hfront]
        simp [List.append_assoc]

/-- C10: for every list, start index (negative and out-of-range included),
remove count (negative included) and items list (the ≥ 10000 chunked path
included), the source's `splice` produces exactly the state native
`Array#splice` would: the same elements in the same order. -/
theorem splice_matches_native_splice {α : Type} :
    ∀ (list : List α) (start remove : Int) (items : List α),
      splice list start remove items = nativeSplice list start remove items := by
  intro list start remove items
  simp only [splice, nativeSplice]
  have hs : (if start < 0 then (if -start > (list.length : Int) then 0
        else (list.length : Int) + start)
      else (if start > (list.length : Int) then (list.length : Int) else start)).toNat
      = (if start < 0 then max ((list.length : Int) + start) 0
        else min start (list.length : Int)).toNat := by
    split_ifs <;> omega
  rw [hs]
  set s : Nat := (if start < 0 then max ((list.length : Int) + start) 0
    else min start (list.length : Int)).toNat with hsdef
  have hsle : s ≤ list.length := by
    rw [hsdef]
    split_ifs <;> omega
  have hr : (min (if remove > 0 then remove else 0)
        ((list.length : Int) - (s : Int))).toNat
      = (min (max remove 0) ((list.length : Int) - (s : Int))).toNat := by
    split_ifs <;> omega
  by_cases hsmalli : items.length < 10000
  · rw [if_pos hsmalli, hr]
  · rw [if_neg hsmalli]
    by_cases hr0 : (if remove > 0 then remove else 0) ≠ 0
    · rw [if_pos hr0]
      have hle : s ≤ (list.take s ++
          list.drop (s + (min (if remove > 0 then remove else 0)
            ((list.length : Int) - (s : Int))).toNat)).length := by
        have h1 : (list.take s).length = s := List.length_take_of_le hsle
        simp only [List.length_append, h1]
        omega
      rw [insertChunks_spec items.length items le_rfl _ _ hle]
      have h1 : (list.take s).length = s := List.length_take_of_le hsle
      rw [List.take_left' h1, List.drop_left' h1, hr]
    · rw [if_neg hr0]
      push_neg at hr0
      have hd : (min (max remove 0) ((list.length : Int) - (s : Int))).toNat = 0 := by
        rw [← hr, hr0]
        omega
      rw [hd]
      have hle2 : s ≤ list.length := hsle
      rw [insertChunks_spec items.length items le_rfl _ _ hle2]
      simp

lemma mdLineEndingOrSpace_of_mdLineEnding {c : Int} (h : mdLineEnding c = true) :
    mdLineEndingOrSpace c = true := by
  simp only [mdLineEnding, decide_eq_true_eq] at h
  simp only [mdLineEndingOrSpace, Bool.or_eq_true, decide_eq_true_eq]
  left
  omega

lemma plainCode_split {c : Int} (h : plainCode c = true) :
    c ≠ 91 ∧ c ≠ 92 ∧ c ≠ 93 := by
  simp only [plainCode, Bool.not_eq_true', Bool.or_eq_false_iff, decide_eq_false_iff_not] at h
  exact ⟨h.1.1, h.1.2, h.2⟩

lemma defLabel_accepts :
    ∀ (l : List Int) (size : Nat) (data : Bool) (acc rest : List Int),
      (∀ c ∈ l, plainCode c = true) →
      size + l.length ≤ 999 →
      (data = true ∨ ∃ c ∈ l, mdLineEndingOrSpace c = false) →
      defLabel size data false acc (l ++ 93 :: rest) = some ⟨acc ++ l, rest⟩ := by
  intro l
  induction l with
  | nil =>
    intro size data acc rest _ hsize hdata
    have hdata' : data = true := by
      rcases hdata with h | ⟨c, hc, _⟩
      · exact h
      · simp at hc
    simp only [List.length_nil, Nat.add_zero] at hsize
    simp only [List.nil_append, defLabel]
    rw [if_neg (by simp), if_neg (by omega)]
    simp only [if_true]
    rw [if_neg (by simp [hdata'])]
    simp
  | cons c l ih =>
    intro size data acc rest hplain hsize hdata
    obtain ⟨h91, h92, h93⟩ := plainCode_split (hplain c (by simp))
    rw [List.cons_append]
    simp only [defLabel]
    rw [if_neg (by simp), if_neg (by simp only [not_or]; exact ⟨h91, by omega⟩), if_neg h93]
    have hplain' : ∀ c' ∈ l, plainCode c' = true := fun c' hc' => hplain c' (by simp [hc'])
    have hsize' : size + 1 + l.length ≤ 999 := by simp at hsize; omega
    by_cases hle : mdLineEnding c
    · rw [if_pos hle]
      have hdata' : data = true ∨ ∃ c' ∈ l, mdLineEndingOrSpace c' = false := by
        rcases hdata with h | ⟨c', hc', hws⟩
        · exact Or.inl h
        · rcases List.mem_cons.mp hc' with rfl | hmem
          · rw [mdLineEndingOrSpace_of_mdLineEnding hle] at hws
            exact absurd hws (by simp)
          · exact Or.inr ⟨c', hmem, hws⟩
      rw [ih (size + 1) data (acc ++ [c]) rest hplain' hsize' hdata']
      simp
    · rw [if_neg hle]
      rw [show (decide (c = 92) : Bool) = false from decide_eq_false h92]
      have hdata' : (data || !mdLineEndingOrSpace c) = true ∨
          ∃ c' ∈ l, mdLineEndingOrSpace c' = false := by
        rcases hdata with h | ⟨c', hc', hws⟩
        · exact Or.inl (by simp [h])
        · rcases List.mem_cons.mp hc' with rfl | hmem
          · exact Or.inl (by simp [hws])
          · exact Or.inr ⟨c', hmem, hws⟩
      rw [ih (size + 1) (data || !mdLineEndingOrSpace c) (acc ++ [c]) rest hplain' hsize' hdata']
      simp

lemma callData_accepts (defined : List String) :
    ∀ (l : List Int) (size : Nat) (data : Bool) (acc rest : List Int),
      (∀ c ∈ l, plainCode c = true) →
      size + l.length ≤ 999 →
      (data = true ∨ ∃ c ∈ l, mdLineEndingOrSpace c = false) →
      defined.contains (normalizeIdentifier (sliceSerialize (acc ++ l))) = true →
      callData defined size data false acc (l ++ 93 :: rest) = some ⟨acc ++ l, rest⟩ := by
  intro l
  induction l with
  | nil =>
    intro size data acc rest _ hsize hdata hmem
    have hdata' : data = true := by
      rcases hdata with h | ⟨c, hc, _⟩
      · exact h
      · simp at hc
    simp only [List.length_nil, Nat.add_zero] at hsize
    simp only [List.nil_append, callData]
    rw [if_neg (by simp), if_neg (by omega)]
    simp only [if_true]
    rw [if_neg (by simp [hdata']), if_pos (by simpa using hmem)]
    simp
  | cons c l ih =>
    intro size data acc rest hplain hsize hdata hmem
    obtain ⟨h91, h92, h93⟩ := plainCode_split (hplain c (by simp))
    rw [List.cons_append]
    simp only [callData]
    rw [if_neg (by simp), if_neg (by simp only [not_or]; exact ⟨h91, by omega⟩), if_neg h93]
    rw [show (decide (c = 92) : Bool) = false from decide_eq_false h92]
    have hplain' : ∀ c' ∈ l, plainCode c' = true := fun c' hc' => hplain c' (by simp [hc'])
    have hsize' : size + 1 + l.length ≤ 999 := by simp at hsize; omega
    have hdata' : (data || !mdLineEndingOrSpace c) = true ∨
        ∃ c' ∈ l, mdLineEndingOrSpace c' = false := by
      rcases hdata with h | ⟨c', hc', hws⟩
      · exact Or.inl (by simp [h])
      · rcases List.mem_cons.mp hc' with rfl | hmem'
        · exact Or.inl (by simp [hws])
        · exact Or.inr ⟨c', hmem', hws⟩
    have hmem' : defined.contains
        (normalizeIdentifier (sliceSerialize ((acc ++ [c]) ++ l))) = true := by
      rwa [List.append_assoc, List.singleton_append]
    rw [ih (size + 1) (data || !mdLineEndingOrSpace c) (acc ++ [c]) rest hplain' hsize'
      hdata' hmem']
    simp

lemma defLabel_rejects :
    ∀ (l : List Int) (size : Nat) (data : Bool) (acc rest : List Int),
      (∀ c ∈ l, plainCode c = true) →
      1000 ≤ size + l.length →
      defLabel size data false acc (l ++ 93 :: rest) = none := by
  intro l
  induction l with
  | nil =>
    intro size data acc rest _ hsize
    simp only [List.length_nil, Nat.add_zero] at hsize
    simp only [List.nil_append, defLabel]
    rw [if_neg (by simp), if_pos (Or.inr (by omega))]
  | cons c l ih =>
    intro size data acc rest hplain hsize
    obtain ⟨h91, h92, h93⟩ := plainCode_split (hplain c (by simp))
    rw [List.cons_append]
    simp only [defLabel]
    rw [if_neg (by simp)]
    by_cases hsz : size > 999
    · rw [if_pos (Or.inr hsz)]
    · rw [if_neg (by simp only [not_or]; exact ⟨h91, hsz⟩), if_neg h93]
      have hplain' : ∀ c' ∈ l, plainCode c' = true := fun c' hc' => hplain c' (by simp [hc'])
      have hsize' : 1000 ≤ size + 1 + l.length := by simp at hsize; omega
      by_cases hle : mdLineEnding c
      · rw [if_pos hle, ih (size + 1) data (acc ++ [c]) rest hplain' hsize']
      · rw [if_neg hle]
        rw [show (decide (c = 92) : Bool) = false from decide_eq_false h92]
        rw [ih (size + 1) (data || !mdLineEndingOrSpace c) (acc ++ [c]) rest hplain' hsize']

lemma callData_rejects (defined : List String) :
    ∀ (l : List Int) (size : Nat) (data : Bool) (acc rest : List Int),
      (∀ c ∈ l, plainCode c = true) →
      1000 ≤ size + l.length →
      callData defined size data false acc (l ++ 93 :: rest) = none := by
  intro l
  induction l with
  | nil =>
    intro size data acc rest _ hsize
    simp only [List.length_nil, Nat.add_zero] at hsize
    simp only [List.nil_append, callData]
    rw [if_neg (by simp), if_pos (Or.inr (by omega))]
  | cons c l ih =>
    intro size data acc rest hplain hsize
    obtain ⟨h91, h92, h93⟩ := plainCode_split (hplain c (by simp))
    rw [List.cons_append]
    simp only [callData]
    rw [if_neg (by simp)]
    by_cases hsz : size > 999
    · rw [if_pos (Or.inr hsz)]
    · rw [if_neg (by simp only [not_or]; exact ⟨h91, hsz⟩), if_neg h93]
      rw [show (decide (c = 92) : Bool) = false from decide_eq_false h92]
      have hplain' : ∀ c' ∈ l, plainCode c' = true := fun c' hc' => hplain c' (by simp [hc'])
      have hsize' : 1000 ≤ size + 1 + l.length := by simp at hsize; omega
      rw [ih (size + 1) (data || !mdLineEndingOrSpace c) (acc ++ [c]) rest hplain' hsize']

lemma tokenizeDefinitionStart_of_defLabel (defined : List String) (c0 : Int)
    (rest0 l rest : List Int)
    (h : defLabel 0 false false [] rest0 = some ⟨l, 58 :: rest⟩) :
    ∃ r : DefStartOk,
      tokenizeDefinitionStart defined (c0 :: 94 :: rest0) = some r ∧
        r.labelSlice = l ∧
        r.identifier = normalizeIdentifier (sliceSerialize l) ∧
        r.defined' = registerIdentifier defined (normalizeIdentifier (sliceSerialize l)) := by
  simp only [tokenizeDefinitionStart, h]
  by_cases hblank : blankLineCheck rest
  · exact ⟨_, by rw [if_pos hblank], rfl, rfl, rfl⟩
  · rw [if_neg hblank]
    cases rest with
    | nil => exact absurd rfl hblank
    | cons c rest5 =>
      by_cases hsp : mdSpace c
      · exact ⟨_, by dsimp only; rw [if_pos hsp], rfl, rfl, rfl⟩
      · exact ⟨_, by dsimp only; rw [if_neg hsp], rfl, rfl, rfl⟩

/-- C4: for every identifier that is non-empty after whitespace collapse and
trim (a non-whitespace code exists), parsing the definition `[^id]:`… and
then a call `[^id']` whose label differs from `id` only in casing and
internal markdown whitespace (their normalized identifiers agree) succeeds
in both tokenizers, and the `FootnoteDefinitionNode` and
`FootnoteReferenceNode` built by the exit handlers carry equal `identifier`
fields. -/
theorem definition_then_call_identifiers_agree :
    ∀ (idc idc' rest rest' : List Int) (c0 c0' : Int),
      (∀ c ∈ idc, plainCode c = true) →
      (∀ c ∈ idc', plainCode c = true) →
      idc.length ≤ 999 → idc'.length ≤ 999 →
      (∃ c ∈ idc, mdLineEndingOrSpace c = false) →
      (∃ c ∈ idc', mdLineEndingOrSpace c = false) →
      normalizeIdentifier (sliceSerialize idc') = normalizeIdentifier (sliceSerialize idc) →
      ∃ (rd : DefStartOk) (rc : CallOk),
        tokenizeDefinitionStart [] (c0 :: 94 :: (idc ++ 93 :: 58 :: rest)) = some rd ∧
        tokenizeFootnoteCall rd.defined' (c0' :: 94 :: (idc' ++ 93 :: rest')) = some rc ∧
        (exitFootnoteDefinitionLabelString (resumeModel rd.labelSlice) rd.labelSlice
            ⟨"", "", []⟩).identifier =
          (exitFootnoteCallString (resumeModel rc.label) rc.label ⟨"", ""⟩).identifier := by
  intro idc idc' rest rest' c0 c0' hplain hplain' hlen hlen' hdata hdata' heq
  have hdef : defLabel 0 false false [] (idc ++ 93 :: 58 :: rest) = some ⟨idc, 58 :: rest⟩ := by
    have := defLabel_accepts idc 0 false [] (58 :: rest) hplain (by omega) (Or.inr hdata)
    simpa using this
  obtain ⟨rd, hrd, hslice, hident, hdefined⟩ :=
    tokenizeDefinitionStart_of_defLabel [] c0 (idc ++ 93 :: 58 :: rest) idc rest hdef
  have hreg : rd.defined' = [normalizeIdentifier (sliceSerialize idc)] := by
    rw [hdefined]
    simp [registerIdentifier]
  have hmem : rd.defined'.contains (normalizeIdentifier (sliceSerialize ([] ++ idc'))) = true := by
    rw [hreg]
    simp only [List.nil_append, heq]
    simp
  have hcall : callData rd.defined' 0 false false [] (idc' ++ 93 :: rest') =
      some ⟨[] ++ idc', rest'⟩ :=
    callData_accepts rd.defined' idc' 0 false [] rest' hplain' (by omega) (Or.inr hdata') hmem
  refine ⟨rd, ⟨idc', rest'⟩, hrd, ?_, ?_⟩
  · simp only [tokenizeFootnoteCall]
    simpa using hcall
  · simp only [exitFootnoteDefinitionLabelString, exitFootnoteCallString, hslice, heq]

/-- Witness for C4 at the definition label ` A\nb ` (codes
`[32, 65, -4, 98, 32]`) and the call label `a b` (codes `[97, 32, 98]`),
which differ only in casing and internal markdown whitespace. -/
theorem definition_then_call_identifiers_agree_witness :
    ∃ (rd : DefStartOk) (rc : CallOk),
      tokenizeDefinitionStart [] (91 :: 94 :: ([32, 65, -4, 98, 32] ++ 93 :: 58 :: [])) =
          some rd ∧
      tokenizeFootnoteCall rd.defined' (91 :: 94 :: ([97, 32, 98] ++ 93 :: [])) = some rc ∧
      (exitFootnoteDefinitionLabelString (resumeModel rd.labelSlice) rd.labelSlice
          ⟨"", "", []⟩).identifier =
        (exitFootnoteCallString (resumeModel rc.label) rc.label ⟨"", ""⟩).identifier :=
  definition_then_call_identifiers_agree [32, 65, -4, 98, 32] [97, 32, 98] [] [] 91 91
    (by decide) (by decide) (by decide) (by decide)
    ⟨65, by decide, by decide⟩ ⟨97, by decide, by decide⟩ (by decide)

/-- C5 counterexample: a label of exactly 1000 consumed units followed by
its closing `]` is rejected by both tokenizers (even when its identifier is
already known), because `size` has already reached 1000 when the closing
`]` is examined and the `> 999` test fires. -/
theorem label_size_1000_counterexample :
    tokenizeFootnoteCall [normalizeIdentifier (sliceSerialize (List.replicate 1000 97))]
        (91 :: 94 :: (List.replicate 1000 97 ++ 93 :: [])) = none ∧
    tokenizeDefinitionStart [] (91 :: 94 :: (List.replicate 1000 97 ++ 93 :: 58 :: [])) =
      none := by
  have hplain : ∀ c ∈ List.replicate 1000 (97 : Int), plainCode c = true := by
    intro c hc
    rw [List.eq_of_mem_replicate hc]
    decide
  constructor
  · simp only [tokenizeFootnoteCall]
    exact callData_rejects _ _ 0 false [] [] hplain
      (by simp only [List.length_replicate]; omega)
  · simp only [tokenizeDefinitionStart]
    rw [defLabel_rejects (List.replicate 1000 97) 0 false [] (58 :: []) hplain
      (by simp only [List.length_replicate]; omega)]

/-- C5 (amended): for both the call tokenizer and the definition tokenizer,
a label of at most 999 consumed units followed by its closing `]` is
accepted (in particular exactly 999), while a label of 1000 or more units
is rejected, the construct falling back to literal text — the boundary sits
at 999/1000, not at the claimed 1000/1001. -/
theorem label_size_boundary :
    ∀ (l rest : List Int) (defined : List String) (c0 : Int),
      (∀ c ∈ l, plainCode c = true) →
      (∃ c ∈ l, mdLineEndingOrSpace c = false) →
      (l.length ≤ 999 →
        (defined.contains (normalizeIdentifier (sliceSerialize l)) = true →
          tokenizeFootnoteCall defined (c0 :: 94 :: (l ++ 93 :: rest)) = some ⟨l, rest⟩) ∧
        ∃ r : DefStartOk,
          tokenizeDefinitionStart defined (c0 :: 94 :: (l ++ 93 :: 58 :: rest)) = some r ∧
            r.labelSlice = l) ∧
      (1000 ≤ l.length →
        tokenizeFootnoteCall defined (c0 :: 94 :: (l ++ 93 :: rest)) = none ∧
        tokenizeDefinitionStart defined (c0 :: 94 :: (l ++ 93 :: 58 :: rest)) = none) := by
  intro l rest defined c0 hplain hdata
  constructor
  · intro hlen
    constructor
    · intro hmem
      simp only [tokenizeFootnoteCall]
      have := callData_accepts defined l 0 false [] rest hplain (by omega) (Or.inr hdata)
        (by simpa using hmem)
      simpa using this
    · have hdef : defLabel 0 false false [] (l ++ 93 :: 58 :: rest) = some ⟨l, 58 :: rest⟩ := by
        have := defLabel_accepts l 0 false [] (58 :: rest) hplain (by omega) (Or.inr hdata)
        simpa using this
      obtain ⟨r, hr, hsl, _, _⟩ :=
        tokenizeDefinitionStart_of_defLabel defined c0 (l ++ 93 :: 58 :: rest) l rest hdef
      exact ⟨r, hr, hsl⟩
  · intro hlen
    constructor
    · simp only [tokenizeFootnoteCall]
      exact callData_rejects defined l 0 false [] rest hplain (by omega)
    · simp only [tokenizeDefinitionStart]
      rw [defLabel_rejects l 0 false [] (58 :: rest) hplain (by omega)]

/-- Witness for C5 (amended) at labels of exactly 999 and exactly 1000
`a`s. -/
theorem label_size_boundary_witness :
    ((([normalizeIdentifier (sliceSerialize (List.replicate 999 97))] :
          List String).contains
        (normalizeIdentifier (sliceSerialize (List.replicate 999 97))) = true →
      tokenizeFootnoteCall [normalizeIdentifier (sliceSerialize (List.replicate 999 97))]
          (91 :: 94 :: (List.replicate 999 97 ++ 93 :: [])) =
        some ⟨List.replicate 999 97, []⟩) ∧
    (∃ r : DefStartOk,
      tokenizeDefinitionStart [normalizeIdentifier (sliceSerialize (List.replicate 999 97))]
          (91 :: 94 :: (List.replicate 999 97 ++ 93 :: 58 :: [])) = some r ∧
        r.labelSlice = List.replicate 999 97)) ∧
    (tokenizeFootnoteCall [] (91 :: 94 :: (List.replicate 1000 97 ++ 93 :: [])) = none ∧
      tokenizeDefinitionStart [] (91 :: 94 :: (List.replicate 1000 97 ++ 93 :: 58 :: [])) =
        none) := by
  have hp999 : ∀ c ∈ List.replicate 999 (97 : Int), plainCode c = true := by
    intro c hc
    rw [List.eq_of_mem_replicate hc]
    decide
  have hp1000 : ∀ c ∈ List.replicate 1000 (97 : Int), plainCode c = true := by
    intro c hc
    rw [List.eq_of_mem_replicate hc]
    decide
  exact ⟨(label_size_boundary (List.replicate 999 97) []
      [normalizeIdentifier (sliceSerialize (List.replicate 999 97))] 91 hp999
      ⟨97, List.mem_replicate.mpr ⟨by omega, rfl⟩, by decide⟩).1
      (by simp only [List.length_replicate]; omega),
    (label_size_boundary (List.replicate 1000 97) [] [] 91 hp1000
      ⟨97, List.mem_replicate.mpr ⟨by omega, rfl⟩, by decide⟩).2
      (by simp only [List.length_replicate]; omega)⟩

lemma takeSpaces_length :
    ∀ (input : List Int) (limit : Nat),
      (takeSpaces limit input).1.length =
        min limit (input.takeWhile (fun c => mdSpace c)).length := by
  intro input
  induction input with
  | nil => intro limit; simp [takeSpaces]
  | cons c rest ih =>
    intro limit
    by_cases hsp : mdSpace c
    · by_cases hl : limit > 0
      · have hstep : (takeSpaces limit (c :: rest)).1 = c :: (takeSpaces (limit - 1) rest).1 := by
          simp only [takeSpaces]
          rw [if_pos ⟨hsp, hl⟩]
        rw [hstep]
        simp only [List.length_cons, ih (limit - 1), List.takeWhile_cons, hsp, if_true]
        omega
      · have hl0 : limit = 0 := by omega
        subst hl0
        rw [show takeSpaces 0 (c :: rest) = ([], c :: rest) from by
          simp only [takeSpaces]
          rw [if_neg (by simp)]]
        simp
    · rw [show takeSpaces limit (c :: rest) = ([], c :: rest) from by
        simp only [takeSpaces]
        rw [if_neg (by simp [hsp])]]
      simp [List.takeWhile_cons, hsp]

/-- C6: in the definition-continuation machine, (1) every blank line is
accepted; (2) a blank line when the definition opened on a blank line sets
`furtherBlankLines`; (3) once `furtherBlankLines` is set, every non-blank
continuation line is rejected, however indented, so the definition closes;
(4) otherwise a non-blank line continues the definition if and only if it
starts with at least 4 space-equivalent codes; and concretely
`[^n]:\n\nfoo` closes the definition before `foo` (empty body, `foo` left
over) while `[^n]:\n    foo` includes `foo` in the body. -/
theorem definition_continuation_behaviour :
    (∀ (st : ContState) (input : List Int), blankLineCheck input = true →
        (tokenizeDefinitionContinuation st input).isSome = true) ∧
    (∀ (st : ContState) (input : List Int), st.initialBlankLine = true →
        blankLineCheck input = true →
        tokenizeDefinitionContinuation st input =
          some ({ st with furtherBlankLines := true }, input)) ∧
    (∀ (st : ContState) (input : List Int), st.furtherBlankLines = true →
        blankLineCheck input = false →
        tokenizeDefinitionContinuation st input = none) ∧
    (∀ (st : ContState) (input : List Int), st.furtherBlankLines = false →
        blankLineCheck input = false →
        ((tokenizeDefinitionContinuation st input).isSome = true ↔
          4 ≤ (input.takeWhile (fun c => mdSpace c)).length)) ∧
    ((parseFootnoteDefDoc "[^n]:\n\nfoo").map
        (fun p => (p.1.children, sliceSerialize p.2)) = some ([], "foo")) ∧
    ((parseFootnoteDefDoc "[^n]:\n    foo").map
        (fun p => (p.1.children.map serializeBlock, sliceSerialize p.2)) =
      some (["foo"], "")) := by
  refine ⟨?_, ?_, ?_, ?_, by decide, by decide⟩
  · intro st input hblank
    simp [tokenizeDefinitionContinuation, hblank]
  · intro st input hinit hblank
    simp [tokenizeDefinitionContinuation, hblank, hinit]
  · intro st input hfurther hblank
    cases input with
    | nil => simp [blankLineCheck] at hblank
    | cons c rest =>
      simp only [tokenizeDefinitionContinuation, hblank]
      rw [if_neg (by simp), if_pos (by simp [hfurther])]
  · intro st input hfurther hblank
    cases input with
    | nil => simp [blankLineCheck] at hblank
    | cons c rest =>
      simp only [tokenizeDefinitionContinuation, hblank]
      rw [if_neg (by simp)]
      by_cases hsp : mdSpace c
      · rw [if_neg (by simp [hfurther, hsp])]
        have hlen := takeSpaces_length (c :: rest) 4
        constructor
        · intro h
          by_cases h4 : (takeSpaces 4 (c :: rest)).1.length = 4
          · omega
          · rw [if_neg h4] at h
            simp at h
        · intro h
          rw [if_pos (by omega)]
          simp
      · rw [if_pos (by simp [hsp])]
        simp only [Option.isSome_none, Bool.false_eq_true, false_iff]
        simp [List.takeWhile_cons, hsp]

/-- Witness for C6 at concrete states and lines: a blank line in state
(initialBlankLine, no furtherBlankLines) is accepted and sets
`furtherBlankLines`; in the furtherBlankLines state the 4-space-indented
line `    foo` is rejected; with clean flags the same line is accepted. -/
theorem definition_continuation_behaviour_witness :
    (tokenizeDefinitionContinuation ⟨true, false⟩ [-4, 102] ).isSome = true ∧
    tokenizeDefinitionContinuation ⟨true, false⟩ [-4, 102] =
      some (⟨true, true⟩, [-4, 102]) ∧
    tokenizeDefinitionContinuation ⟨true, true⟩ [32, 32, 32, 32, 102] = none ∧
    ((tokenizeDefinitionContinuation ⟨false, false⟩ [32, 32, 32, 32, 102]).isSome = true ↔
      4 ≤ (([32, 32, 32, 32, 102] : List Int).takeWhile (fun c => mdSpace c)).length) :=
  ⟨definition_continuation_behaviour.1 ⟨true, false⟩ [-4, 102] (by decide),
    definition_continuation_behaviour.2.1 ⟨true, false⟩ [-4, 102] rfl (by decide),
    definition_continuation_behaviour.2.2.1 ⟨true, true⟩ [32, 32, 32, 32, 102] rfl (by decide),
    definition_continuation_behaviour.2.2.2.1 ⟨false, false⟩ [32, 32, 32, 32, 102] rfl
      (by decide)⟩

lemma resolveAllNote_no_start :
    ∀ (evs : List Event), ∀ e ∈ resolveAllNote evs,
      ¬(e.1 = Phase.enter ∧ e.2.type = "inlineNoteStart") := by
  intro evs
  induction evs using resolveAllNote.induct with
  | case1 => simp [resolveAllNote]
  | case2 e rest hcond ih =>
    simp only [resolveAllNote]
    rw [if_pos hcond]
    intro e' he'
    rcases List.mem_cons.mp he' with rfl | hmem
    · simp
    · exact ih e' hmem
  | case3 e rest hcond ih =>
    simp only [resolveAllNote]
    rw [if_neg hcond]
    intro e' he'
    rcases List.mem_cons.mp he' with rfl | hmem
    · exact hcond
    · exact ih e' hmem

lemma resolveAllNote_fixed (evs : List Event)
    (h : ∀ e ∈ evs, ¬(e.1 = Phase.enter ∧ e.2.type = "inlineNoteStart")) :
    resolveAllNote evs = evs := by
  induction evs with
  | nil => simp [resolveAllNote]
  | cons e rest ih =>
    simp only [resolveAllNote]
    rw [if_neg (h e (by simp)), ih (fun e' he' => h e' (by simp [he']))]

lemma retypeId_eq_self (i : Nat) (ty : String) (evs : List Event)
    (h : ∀ e ∈ evs, e.2.id ≠ i) : retypeId i ty evs = evs := by
  unfold retypeId
  induction evs with
  | nil => rfl
  | cons e rest ih =>
    simp only [List.map_cons]
    rw [if_neg (h e (by simp)), ih (fun e' he' => h e' (by simp [he']))]

/-- C7: after the orphan-cleanup resolver runs, no `enter` event of an
`inlineNoteStart` token remains; and on a stream holding an unmatched start
(its enter, the four marker sub-events, its exit) the resolver changes the
shared token's type to `data` (visible on both its enter and its exit
event) and removes exactly the four marker sub-events, leaving everything
else untouched. -/
theorem resolver_removes_note_starts :
    (∀ (evs : List Event), ∀ e ∈ resolveAllNote evs,
        ¬(e.1 = Phase.enter ∧ e.2.type = "inlineNoteStart")) ∧
    (∀ (pre rest : List Event) (s : Token) (m1 m2 m3 m4 : Event),
        s.type = "inlineNoteStart" →
        (∀ e ∈ pre, ¬(e.1 = Phase.enter ∧ e.2.type = "inlineNoteStart")) →
        (∀ e ∈ rest, ¬(e.1 = Phase.enter ∧ e.2.type = "inlineNoteStart")) →
        (∀ e ∈ rest, e.2.id ≠ s.id) →
        resolveAllNote (pre ++ (Phase.enter, s) :: m1 :: m2 :: m3 :: m4 ::
            (Phase.exit, s) :: rest) =
          pre ++ (Phase.enter, { s with type := "data" }) ::
            (Phase.exit, { s with type := "data" }) :: rest) := by
  refine ⟨resolveAllNote_no_start, ?_⟩
  intro pre
  induction pre with
  | nil =>
    intro rest s m1 m2 m3 m4 hs _ hrest hid
    simp only [List.nil_append, resolveAllNote]
    rw [if_pos ⟨trivial, hs⟩]
    have hdrop : (m1 :: m2 :: m3 :: m4 :: (Phase.exit, s) :: rest).drop 4 =
        (Phase.exit, s) :: rest := rfl
    rw [hdrop]
    have hretype : retypeId s.id "data" ((Phase.exit, s) :: rest) =
        (Phase.exit, { s with type := "data" }) :: rest := by
      have hmap := retypeId_eq_self s.id "data" rest hid
      unfold retypeId at hmap ⊢
      simp [hmap]
    rw [hretype]
    simp only [resolveAllNote]
    rw [if_neg (by simp)]
    rw [resolveAllNote_fixed rest hrest]
  | cons p pre' ih =>
    intro rest s m1 m2 m3 m4 hs hpre hrest hid
    simp only [List.cons_append, resolveAllNote]
    rw [if_neg (hpre p (by simp)),
      ih rest s m1 m2 m3 m4 hs (fun e he => hpre e (by simp [he])) hrest hid]

/-- Witness for C7 on the concrete stream of one unmatched `^[` (enter,
four marker sub-events, exit) followed by a data token's events. -/
theorem resolver_removes_note_starts_witness :
    resolveAllNote ([] ++
        (Phase.enter, ⟨"inlineNoteStart", ⟨1, 1, 0⟩, ⟨1, 3, 2⟩, 1⟩) ::
        (Phase.enter, ⟨"inlineNoteMarker", ⟨1, 1, 0⟩, ⟨1, 2, 1⟩, 2⟩) ::
        (Phase.exit, ⟨"inlineNoteMarker", ⟨1, 1, 0⟩, ⟨1, 2, 1⟩, 2⟩) ::
        (Phase.enter, ⟨"inlineNoteStartMarker", ⟨1, 2, 1⟩, ⟨1, 3, 2⟩, 3⟩) ::
        (Phase.exit, ⟨"inlineNoteStartMarker", ⟨1, 2, 1⟩, ⟨1, 3, 2⟩, 3⟩) ::
        (Phase.exit, ⟨"inlineNoteStart", ⟨1, 1, 0⟩, ⟨1, 3, 2⟩, 1⟩) ::
        [(Phase.enter, ⟨"data", ⟨1, 3, 2⟩, ⟨1, 4, 3⟩, 4⟩),
          (Phase.exit, ⟨"data", ⟨1, 3, 2⟩, ⟨1, 4, 3⟩, 4⟩)]) =
      [] ++ (Phase.enter, ⟨"data", ⟨1, 1, 0⟩, ⟨1, 3, 2⟩, 1⟩) ::
        (Phase.exit, ⟨"data", ⟨1, 1, 0⟩, ⟨1, 3, 2⟩, 1⟩) ::
        [(Phase.enter, ⟨"data", ⟨1, 3, 2⟩, ⟨1, 4, 3⟩, 4⟩),
          (Phase.exit, ⟨"data", ⟨1, 3, 2⟩, ⟨1, 4, 3⟩, 4⟩)] :=
  resolver_removes_note_starts.2 []
    [(Phase.enter, ⟨"data", ⟨1, 3, 2⟩, ⟨1, 4, 3⟩, 4⟩),
      (Phase.exit, ⟨"data", ⟨1, 3, 2⟩, ⟨1, 4, 3⟩, 4⟩)]
    ⟨"inlineNoteStart", ⟨1, 1, 0⟩, ⟨1, 3, 2⟩, 1⟩
    (Phase.enter, ⟨"inlineNoteMarker", ⟨1, 1, 0⟩, ⟨1, 2, 1⟩, 2⟩)
    (Phase.exit, ⟨"inlineNoteMarker", ⟨1, 1, 0⟩, ⟨1, 2, 1⟩, 2⟩)
    (Phase.enter, ⟨"inlineNoteStartMarker", ⟨1, 2, 1⟩, ⟨1, 3, 2⟩, 3⟩)
    (Phase.exit, ⟨"inlineNoteStartMarker", ⟨1, 2, 1⟩, ⟨1, 3, 2⟩, 3⟩)
    rfl (by simp) (by decide) (by decide)

lemma scanBack_found (evs : List Event) (p : Nat) (ep : Event)
    (hp : evs.get? p = some ep)
    (hep : ep.1 = Phase.enter ∧ ep.2.type = "inlineNoteStart") :
    ∀ (k : Nat),
      (∀ j, p < j → j < p + 1 + k → ∀ e', evs.get? j = some e' →
        ¬(e'.1 = Phase.enter ∧ e'.2.type = "inlineNoteStart")) →
      scanBack evs (p + 1 + k) = some p := by
  intro k
  induction k with
  | zero =>
    intro _
    show scanBack evs (p + 1) = some p
    simp only [scanBack, hp]
    rw [if_pos hep]
  | succ k ih =>
    intro hmid
    show scanBack evs ((p + 1 + k) + 1) = some p
    simp only [scanBack]
    cases hj : evs.get? (p + 1 + k) with
    | none =>
      show scanBack evs (p + 1 + k) = some p
      exact ih fun j h1 h2 => hmid j h1 (by omega)
    | some e' =>
      show (if e'.1 = Phase.enter ∧ e'.2.type = "inlineNoteStart" then some (p + 1 + k)
        else scanBack evs (p + 1 + k)) = some p
      rw [if_neg (hmid (p + 1 + k) (by omega) (by omega) e' hj)]
      exact ih fun j h1 h2 => hmid j h1 (by omega)

/-- C8 counterexample: resolving the events of `^[a]` (with a trivial
interior resolver), the spliced span's inline-note-end-marker token has its
`exit` event at index 9 and its `enter` event at index 10: the exit comes
strictly before the enter, so the span is not properly nested at the end
marker. -/
theorem note_end_nesting_counterexample :
    (resolveToNoteEnd (fun es => es) exNoteEvents).findIdx?
        (fun e => e == (Phase.exit, exNoteEndMarker)) = some 9 ∧
    (resolveToNoteEnd (fun es => es) exNoteEvents).findIdx?
        (fun e => e == (Phase.enter, exNoteEndMarker)) = some 10 ∧
    enterBeforeExitB (resolveToNoteEnd (fun es => es) exNoteEvents) exNoteEndMarker =
      false := by
  refine ⟨by decide, by decide, by decide⟩

/-- C8 (amended): on a well-formed resolver input (any prefix, the six
events of an inline-note start, an interior without unmatched note starts,
and the four events of the inline-note end), `resolveToNoteEnd` splices in
the span `[enter group, the two start-marker pairs in order, enter
noteText, resolved interior, exit noteText, exit endMarker, enter
endMarker, exit group]`: the group token, the start markers and the inner
`inlineNoteText` token are properly nested (each enter strictly before its
exit, enclosing tokens bracketing enclosed ones), but the
inline-note-end-marker's two events are emitted in inverted order, its exit
immediately before its enter. -/
theorem note_end_resolution_shape :
    ∀ (inner : List Event → List Event) (pre mid : List Event) (s m1 m2 ne nem : Token),
      s.type = "inlineNoteStart" →
      m1.type = "inlineNoteMarker" →
      m2.type = "inlineNoteStartMarker" →
      ne.type = "inlineNoteEnd" →
      nem.type = "inlineNoteEndMarker" →
      (∀ e ∈ mid, ¬(e.1 = Phase.enter ∧ e.2.type = "inlineNoteStart")) →
      resolveToNoteEnd inner (noteShapeEvents pre mid s m1 m2 ne nem) =
        pre ++ (Phase.enter, noteGroupTok pre mid s m1 m2 ne nem) :: (Phase.enter, m1) ::
          (Phase.exit, m1) :: (Phase.enter, m2) :: (Phase.exit, m2) ::
          (Phase.enter, noteTextTok pre mid s m1 m2 ne nem) ::
          (inner mid ++ [(Phase.exit, noteTextTok pre mid s m1 m2 ne nem),
            (Phase.exit, nem), (Phase.enter, nem),
            (Phase.exit, noteGroupTok pre mid s m1 m2 ne nem)]) := by
  intro inner pre mid s m1 m2 ne nem hs hm1 hm2 hne hnem hmid
  have hB : noteShapeEvents pre mid s m1 m2 ne nem =
      pre ++ ([(Phase.enter, s), (Phase.enter, m1), (Phase.exit, m1), (Phase.enter, m2),
        (Phase.exit, m2), (Phase.exit, s)] ++
        (mid ++ [(Phase.enter, ne), (Phase.enter, nem), (Phase.exit, nem),
          (Phase.exit, ne)])) := by
    simp [noteShapeEvents]
  set evs := noteShapeEvents pre mid s m1 m2 ne nem with hevs
  set D : List Event :=
    [(Phase.enter, ne), (Phase.enter, nem), (Phase.exit, nem), (Phase.exit, ne)] with hD
  set B : List Event :=
    [(Phase.enter, s), (Phase.enter, m1), (Phase.exit, m1), (Phase.enter, m2),
      (Phase.exit, m2), (Phase.exit, s)] with hBdef
  have hevs2 : evs = pre ++ (B ++ (mid ++ D)) := hB
  have hevs3 : evs = ((pre ++ B) ++ mid) ++ D := by
    rw [hevs2]
    simp [List.append_assoc]
  have hlen : evs.length = pre.length + 10 + mid.length := by
    rw [hevs2]
    simp [hBdef, hD, List.length_append]
    omega
  have hget0 : evs.get? pre.length = some (Phase.enter, s) := by
    rw [hevs2, List.get?_append_right (Nat.le_refl pre.length)]
    simp [hBdef]
  have hgetB : ∀ i : Nat, evs.get? (pre.length + i) = (B ++ (mid ++ D)).get? i := by
    intro i
    rw [hevs2, List.get?_append_right (by omega)]
    congr 1
    omega
  have hscan : scanBack evs (evs.length - 4) = some pre.length := by
    have harg : evs.length - 4 = pre.length + 1 + (5 + mid.length) := by
      rw [hlen]
      omega
    rw [harg]
    apply scanBack_found evs pre.length (Phase.enter, s) hget0 ⟨rfl, hs⟩
    intro j hj1 hj2 e' hje'
    obtain ⟨i, rfl⟩ : ∃ i, j = pre.length + (1 + i) :=
      ⟨j - (pre.length + 1), by omega⟩
    have hi : i < 5 + mid.length := by omega
    rw [hgetB (1 + i)] at hje'
    by_cases hi5 : i < 5
    · interval_cases i <;>
        (simp [hBdef] at hje'
         simp [← hje', hm1, hm2, hs])
    · obtain ⟨i', rfl⟩ : ∃ i', i = i' + 5 := ⟨i - 5, by omega⟩
      have hmemmid : e' ∈ mid := by
        rw [List.get?_append_right (by simp [hBdef]; omega)] at hje'
        have hidx : 1 + (i' + 5) - B.length = i' := by simp [hBdef]; omega
        rw [hidx] at hje'
        rw [List.get?_append (by omega)] at hje'
        exact List.get?_mem hje'
      exact hmid e' hmemmid
  have htake : evs.take pre.length = pre := by
    rw [hevs2]
    exact List.take_left' rfl
  have hinterior : (evs.take (evs.length - 4)).drop (pre.length + 6) = mid := by
    have h1 : evs.take (evs.length - 4) = (pre ++ B) ++ mid := by
      have hn : evs.length - 4 = ((pre ++ B) ++ mid).length := by
        simp only [List.length_append, hBdef, List.length_cons, List.length_nil]
        rw [hlen]
        omega
      rw [hn, hevs3]
      exact List.take_left _ _
    rw [h1]
    apply List.drop_left'
    simp [hBdef]
  have hgetD : ∀ j : Nat, j < 4 → evs.get? (evs.length - 4 + j) = D.get? j := by
    intro j hj
    have hn : evs.length - 4 + j = ((pre ++ B) ++ mid).length + j := by
      simp only [List.length_append, hBdef, List.length_cons, List.length_nil]
      rw [hlen]
      omega
    rw [hn, hevs3, List.get?_append_right (by omega)]
    congr 1
    omega
  have hat0 : evAt evs pre.length = (Phase.enter, s) := by
    unfold evAt
    rw [hget0]
    rfl
  have hat1 : evAt evs (pre.length + 1) = (Phase.enter, m1) := by
    unfold evAt
    rw [hgetB 1]
    simp [hBdef]
  have hat2 : evAt evs (pre.length + 2) = (Phase.exit, m1) := by
    unfold evAt
    rw [hgetB 2]
    simp [hBdef]
  have hat3 : evAt evs (pre.length + 3) = (Phase.enter, m2) := by
    unfold evAt
    rw [hgetB 3]
    simp [hBdef]
  have hat4 : evAt evs (pre.length + 4) = (Phase.exit, m2) := by
    unfold evAt
    rw [hgetB 4]
    simp [hBdef]
  have hatL1 : evAt evs (evs.length - 1) = (Phase.exit, ne) := by
    unfold evAt
    have : evs.length - 1 = evs.length - 4 + 3 := by rw [hlen]; omega
    rw [this, hgetD 3 (by omega)]
    simp [hD]
  have hatL2 : evAt evs (evs.length - 2) = (Phase.exit, nem) := by
    unfold evAt
    have : evs.length - 2 = evs.length - 4 + 2 := by rw [hlen]; omega
    rw [this, hgetD 2 (by omega)]
    simp [hD]
  have hatL3 : evAt evs (evs.length - 3) = (Phase.enter, nem) := by
    unfold evAt
    have : evs.length - 3 = evs.length - 4 + 1 := by rw [hlen]; omega
    rw [this, hgetD 1 (by omega)]
    simp [hD]
  simp only [resolveToNoteEnd, hscan]
  rw [htake, hinterior, hat0, hat1, hat2, hat3, hat4, hatL1, hatL2, hatL3]
  simp only [noteGroupTok, noteTextTok, ← hevs]
  simp [List.append_assoc]

/-- Witness for C8 (amended) on the concrete `^[a]` events (empty prefix,
one data token as interior, identity interior resolver). -/
theorem note_end_resolution_shape_witness :
    resolveToNoteEnd (fun es => es)
        (noteShapeEvents [] [(Phase.enter, exData), (Phase.exit, exData)]
          exNoteStart exNoteMarker exNoteStartMarker exNoteEnd exNoteEndMarker) =
      [] ++ (Phase.enter, noteGroupTok [] [(Phase.enter, exData), (Phase.exit, exData)]
          exNoteStart exNoteMarker exNoteStartMarker exNoteEnd exNoteEndMarker) ::
        (Phase.enter, exNoteMarker) :: (Phase.exit, exNoteMarker) ::
        (Phase.enter, exNoteStartMarker) :: (Phase.exit, exNoteStartMarker) ::
        (Phase.enter, noteTextTok [] [(Phase.enter, exData), (Phase.exit, exData)]
          exNoteStart exNoteMarker exNoteStartMarker exNoteEnd exNoteEndMarker) ::
        ((fun es => es) [(Phase.enter, exData), (Phase.exit, exData)] ++
          [(Phase.exit, noteTextTok [] [(Phase.enter, exData), (Phase.exit, exData)]
              exNoteStart exNoteMarker exNoteStartMarker exNoteEnd exNoteEndMarker),
            (Phase.exit, exNoteEndMarker), (Phase.enter, exNoteEndMarker),
            (Phase.exit, noteGroupTok [] [(Phase.enter, exData), (Phase.exit, exData)]
              exNoteStart exNoteMarker exNoteStartMarker exNoteEnd exNoteEndMarker)]) :=
  note_end_resolution_shape (fun es => es) [] [(Phase.enter, exData), (Phase.exit, exData)]
    exNoteStart exNoteMarker exNoteStartMarker exNoteEnd exNoteEndMarker
    rfl rfl rfl rfl rfl (by decide)

end Footnotes
